import Mathlib

/-!
Verification development for the repository's core pipeline:
repository scanning (`src/repo/scan.ts`), import parsing and dependency
resolution (`src/repo/dependency.ts`), and the file-relevance selector
(`src/agent/reader.ts`, `src/agent/bugAnalyzer.ts`).

Modelling conventions (documented once here):
* Strings are manipulated as `List Char`; `String` wrappers are kept at the
  interfaces so that structures carry the same field types as the source.
  JavaScript `toLowerCase`, `trim`, `includes`, `startsWith`, `split` are
  modelled character-wise (the sources only ever hit ASCII data).
* The filesystem seen by `fs.existsSync` / `fs.readFileSync` is a finite map
  from paths to file text (`FS`).  The directory tree walked by
  `scanRepository` is a `List Entry`.  Both are passed explicitly.
* `path.join`/`path.resolve` are modelled for POSIX inputs without dot
  segments or duplicate slashes (the normalisation performed by Node is the
  identity on such inputs); `path.isAbsolute` tests for a leading slash.
* JavaScript regular expressions are hand-compiled into explicit matchers
  with the same backtracking preference order (greedy quantifiers try the
  longest repetition first, lazy ones the shortest; alternations are tried
  left to right; `String.match(g)`/`exec` loops restart at the end of the
  previous match and otherwise advance one character).
-/

/-! ### Character-list utilities (JavaScript string primitives) -/

/-- `.` in a JavaScript regex without the `s` flag: any character except a
line terminator. -/
def isDotChar (c : Char) : Bool := c != '\n' && c != '\r'

/-- A quote character, the class `['"]` used by the import regexes. -/
def isQuote (c : Char) : Bool := c = '\'' || c = '"'

/-- `String.prototype.toLowerCase` (ASCII). -/
def lowerChars (cs : List Char) : List Char := cs.map Char.toLower

/-- `String.prototype.includes`: `needle` occurs contiguously in `hay`. -/
def containsSub : List Char → List Char → Bool
  | [], needle => needle.isEmpty
  | hay@(_ :: t), needle => needle.isPrefixOf hay || containsSub t needle

/-- `String.prototype.trim`. -/
def trimChars (cs : List Char) : List Char :=
  ((cs.dropWhile Char.isWhitespace).reverse.dropWhile Char.isWhitespace).reverse

/-- `String.prototype.split` at every character satisfying `p`.
(`split(/\s+/)` treats a run of separators as one; the two differ only in
empty tokens, which every caller in the source filters away by a length
test.) -/
def splitBy (p : Char → Bool) : List Char → List (List Char)
  | [] => [[]]
  | c :: t =>
    let r := splitBy p t
    if p c then [] :: r
    else
      match r with
      | [] => [[c]]
      | h :: t2 => (c :: h) :: t2

/-! ### `path` module (POSIX model) -/

/-- `path.isAbsolute` (POSIX). -/
def isAbsolutePath (p : String) : Bool :=
  match p.toList with
  | '/' :: _ => true
  | _ => false

/-- `path.join` for already-normalised segments. -/
def joinPath (a b : String) : String := a ++ "/" ++ b

/-- The final path segment (characters after the last slash). -/
def afterLastSlash (cs : List Char) : List Char :=
  cs.foldl (fun acc c => if c = '/' then [] else acc ++ [c]) []

/-- `path.basename` (POSIX): trailing slashes are dropped, then the last
segment is returned. -/
def basenameChars (cs : List Char) : List Char :=
  let stripped := (cs.reverse.dropWhile (fun c => c = '/')).reverse
  match stripped with
  | [] => if cs.isEmpty then [] else ['/']
  | s => afterLastSlash s

/-- `path.basename` on `String`. -/
def basenameStr (p : String) : String := String.mk (basenameChars p.toList)

/-- `path.extname` (POSIX): the suffix of the final segment from its last
dot, empty when there is no dot or the only dot leads the segment. -/
def extnameChars (cs : List Char) : List Char :=
  let base := afterLastSlash cs
  let revTail := base.reverse.takeWhile (fun c => c != '.')
  if revTail.length = base.length then []
  else if base.length - revTail.length - 1 = 0 then []
  else '.' :: revTail.reverse

/-- `path.extname` on `String`. -/
def extname (p : String) : String := String.mk (extnameChars p.toList)

/-- `toLowerCase` on `String`. -/
def toLowerStr (s : String) : String := String.mk (lowerChars s.toList)

/-! ### Filesystem model -/

/-- The disk as seen by `fs.existsSync`/`fs.readFileSync`: an association
list from (already resolved) paths to file text. -/
abbrev FS := List (String × String)

/-- `fs.existsSync`. -/
def existsSync (fs : FS) (p : String) : Bool := (fs.lookup p).isSome

/-- `fs.readFileSync` (only ever called behind `existsSync` in the source). -/
def readFileSync (fs : FS) (p : String) : String := (fs.lookup p).getD ""

/-! ### `src/repo/scan.ts` -/

/-- Output record of the scanner (`ScannedFile` in `scan.ts`). -/
structure ScannedFile where
  file : String
  path : String
  content : String
  extension : String
deriving DecidableEq, Repr

/-- A directory tree as enumerated by `fs.promises.readdir` (entries in
readdir order; every file in the model is readable, matching the claims'
readability hypothesis). -/
inductive Entry where
  | file (name : String) (content : String)
  | dir (name : String) (entries : List Entry)
deriving Repr

/-- Folders to skip (`IGNORED_DIRS` in `scan.ts`). -/
def IGNORED_DIRS : List String :=
  ["node_modules", ".git", "dist", "build", ".next", "coverage", "__pycache__"]

/-- Supported file types (`SUPPORTED_EXTENSIONS` in `scan.ts`). -/
def SUPPORTED_EXTENSIONS : List String :=
  [".ts", ".js", ".wgsl", ".html", ".css", ".json", ".glsl"]

mutual
/-- One loop iteration of `walkDirectory`: a directory entry is recursed
into unless its exact name is ignored; a file entry is kept when its
lowercased extension is supported. -/
def walkEntry (dirPath : String) : Entry → List ScannedFile
  | .file name content =>
    let ext := toLowerStr (extname name)
    if SUPPORTED_EXTENSIONS.contains ext then
      [{ file := name, path := joinPath dirPath name, content := content, extension := ext }]
    else []
  | .dir name entries =>
    if IGNORED_DIRS.contains name then [] else walkDirectory (joinPath dirPath name) entries

/-- `walkDirectory` of `scan.ts` (the mutable `files` accumulator is the
returned list; entries are processed in readdir order). -/
def walkDirectory (dirPath : String) : List Entry → List ScannedFile
  | [] => []
  | e :: es => walkEntry dirPath e ++ walkDirectory dirPath es
end

/-- `scanRepository` of `scan.ts`; `path.resolve(rootPath)` is the identity
on the absolute, normalised roots considered here. -/
def scanRepository (rootPath : String) (tree : List Entry) : List ScannedFile :=
  walkDirectory rootPath tree

/-! ### Regex backtracking helpers -/

/-- Try a continuation after dropping `j` characters, for `j` descending
from the given bound down to 1.  With the bound instantiated to the length
of the leading whitespace run this is `\s+` with its greedy backtracking. -/
def tryDropFrom (cs : List Char) (k : List Char → Option α) : Nat → Option α
  | 0 => none
  | j + 1 =>
    match k (cs.drop (j + 1)) with
    | some r => some r
    | none => tryDropFrom cs k j

/-- `\s+` followed by the continuation `k`: the longest whitespace run is
preferred, shorter nonempty runs are tried on failure. -/
def tryWsPlus (cs : List Char) (k : List Char → Option α) : Option α :=
  tryDropFrom cs k (cs.takeWhile Char.isWhitespace).length

/-- `.*?` followed by the continuation `k`: the continuation is tried at the
current position first, then one non-line-terminator character is consumed
and the scan repeats. -/
def lazyScan (k : List Char → Option α) : List Char → Option α
  | [] => k []
  | c :: t =>
    match k (c :: t) with
    | some r => some r
    | none => if isDotChar c then lazyScan k t else none

/-- Continuation loop of `lazyCap` (the capture accumulated in reverse). -/
def lazyCapGo (k : List Char → Option α) (accRev : List Char) :
    List Char → Option (List Char × α)
  | [] => (k []).map (fun r => (accRev.reverse, r))
  | c :: t =>
    match k (c :: t) with
    | some r => some (accRev.reverse, r)
    | none => if isDotChar c then lazyCapGo k (c :: accRev) t else none

/-- `(.+?)` followed by the continuation `k`: at least one
non-line-terminator character is captured, and the shortest capture for
which `k` succeeds wins. -/
def lazyCap (k : List Char → Option α) : List Char → Option (List Char × α)
  | [] => none
  | c :: t => if isDotChar c then lazyCapGo k [c] t else none

/-- Unanchored search: try the matcher at every position, leftmost first
(`String.prototype.match` without `^`). -/
def searchFirst (m : List Char → Option α) : List Char → Option α
  | [] => m []
  | c :: t =>
    match m (c :: t) with
    | some r => some r
    | none => searchFirst m t

/-! ### `src/repo/dependency.ts` -/

/-- `ImportInfo` of `dependency.ts`. -/
structure ImportInfo where
  raw : String
  module : String
  isRelative : Bool
  isPackage : Bool
deriving DecidableEq, Repr

/-- `createImportInfo` of `dependency.ts`. -/
def createImportInfo (raw : String) (modulePath : String) : ImportInfo :=
  let isRelative :=
    ("./".toList).isPrefixOf modulePath.toList || ("../".toList).isPrefixOf modulePath.toList
  { raw := raw, module := modulePath, isRelative := isRelative, isPackage := !isRelative }

/-- The tail `from\s+['"](.+?)['"]` of the first import alternative;
returns the captured module path. -/
def importFromTail (cs : List Char) : Option (List Char) :=
  if ("from".toList).isPrefixOf cs then
    tryWsPlus (cs.drop 4) (fun u =>
      match u with
      | q :: v =>
        if isQuote q then
          (lazyCap (fun w =>
            match w with
            | q2 :: _ => if isQuote q2 then some () else none
            | [] => none) v).map (fun p => p.1)
        else none
      | [] => none)
  else none

/-- The regex
`/^import\s+.*?from\s+['"](.+?)['"]|^import\s+['"](.+?)['"]/` applied to a
trimmed line (anchored, so only position 0 is tried; the first alternative
is preferred); the result is the matched group 1 or group 2. -/
def importLineModule (cs : List Char) : Option String :=
  if ("import".toList).isPrefixOf cs then
    let rest := cs.drop 6
    match tryWsPlus rest (fun u => lazyScan importFromTail u) with
    | some cap => some (String.mk cap)
    | none =>
      tryWsPlus rest (fun u =>
        match u with
        | q :: v =>
          if isQuote q then
            (lazyCap (fun w =>
              match w with
              | q2 :: _ => if isQuote q2 then some () else none
              | [] => none) v).map (fun p => String.mk p.1)
          else none
        | [] => none)
  else none

/-- The regex `/require\s*\(\s*['"](.+?)['"]\s*\)/` tried at one position.
(`\s*` before a character outside the class can only match its maximal
run.) -/
def requireAt (cs : List Char) : Option (List Char) :=
  if ("require".toList).isPrefixOf cs then
    let u := cs.drop 7
    match u.drop (u.takeWhile Char.isWhitespace).length with
    | '(' :: v =>
      match v.drop (v.takeWhile Char.isWhitespace).length with
      | q :: w =>
        if isQuote q then
          (lazyCap (fun x =>
            match x with
            | q2 :: y =>
              if isQuote q2 then
                match y.drop (y.takeWhile Char.isWhitespace).length with
                | ')' :: _ => some ()
                | _ => none
              else none
            | [] => none) w).map (fun p => p.1)
        else none
      | [] => none
    | _ => none
  else none

/-- Leftmost match of the `require` regex; group 1. -/
def requireModule (cs : List Char) : Option String :=
  (searchFirst requireAt cs).map String.mk

/-- One iteration of the `parseImports` line loop: comment-looking lines
(trimmed text starting with `//` or `*`) are skipped, then the ES6 import
regex is tried, then the `require` regex. -/
def parseLine (line : List Char) : Option ImportInfo :=
  let trimmed := trimChars line
  if ("//".toList).isPrefixOf trimmed || ['*'].isPrefixOf trimmed then none
  else
    match importLineModule trimmed with
    | some m => some (createImportInfo (String.mk trimmed) m)
    | none => (requireModule trimmed).map (createImportInfo (String.mk trimmed))

/-- `parseImports` of `dependency.ts`: `content.split('\n')`, one record at
most per line. -/
def parseImports (content : String) : List ImportInfo :=
  (splitBy (fun c => c = '\n') content.toList).filterMap parseLine

/-- The fixed extension list of `resolveImport`. -/
def extensions : List String := [".ts", ".js", ".tsx", ".jsx", ".wgsl"]

/-- `resolveImport` of `dependency.ts`: exact basename, then basename plus
each extension, then `index` plus each extension; the JavaScript `Set` of
existing filenames is modelled by a list queried by membership. -/
def resolveImport (modulePath : String) (existingFiles : List String) : Option String :=
  let baseName := basenameStr modulePath
  if existingFiles.contains baseName then some baseName
  else
    match extensions.findSome? (fun ext =>
        let withExt := baseName ++ ext
        if existingFiles.contains withExt then some withExt else none) with
    | some r => some r
    | none =>
      extensions.findSome? (fun ext =>
        let indexFile := "index" ++ ext
        if existingFiles.contains indexFile then some indexFile else none)

/-- The inner loop of `buildDependencyMap`: relative imports are resolved
and pushed; package imports and unresolved imports contribute nothing. -/
def dependenciesOf (content : String) (fileNames : List String) : List String :=
  (parseImports content).foldl (fun dependencies imp =>
    if imp.isRelative then
      match resolveImport imp.module fileNames with
      | some resolved => dependencies ++ [resolved]
      | none => dependencies
    else dependencies) []

/-- `DependencyMap` of `dependency.ts`: a JavaScript object, i.e. entries in
key-insertion order with unique keys. -/
abbrev DependencyMap := List (String × List String)

/-- Assignment `obj[k] = v` on the object model: an existing key is
overwritten in place, a new key is appended. -/
def objAssign (m : DependencyMap) (k : String) (v : List String) : DependencyMap :=
  if m.any (fun e => e.1 = k) then m.map (fun e => if e.1 = k then (k, v) else e)
  else m ++ [(k, v)]

/-- `buildDependencyMap` of `dependency.ts`. -/
def buildDependencyMap (files : List ScannedFile) : DependencyMap :=
  let fileNames := files.map (fun f => f.file)
  files.foldl (fun m f => objAssign m f.file (dependenciesOf f.content fileNames)) []

/-- `findDependents` of `dependency.ts`: every entry whose dependency list
contains the target, in map order. -/
def findDependents (targetFile : String) (map : DependencyMap) : List String :=
  map.foldl (fun dependents e =>
    if e.2.contains targetFile then dependents ++ [e.1] else dependents) []

/-! ### `src/agent/reader.ts`: stack-trace extraction -/

/-- `ProblemInput` of `reader.ts`; the optional fields model JavaScript
truthiness (`undefined` as `none`; the empty string and the empty array are
also falsy and are tested where the source tests them). -/
structure ProblemInput where
  description : String
  errorLog : Option String
  filePaths : Option (List String)
  basePath : String

/-- `FileContent` of `reader.ts`. -/
structure FileContent where
  path : String
  content : String
  extension : String
deriving DecidableEq, Repr

/-- The alternation `(ts|js|tsx|jsx)`, tried left to right. -/
def stackExts : List (List Char) := ["ts".toList, "js".toList, "tsx".toList, "jsx".toList]

/-- `\.(ts|js|tsx|jsx)` at the current position, with nothing after it:
returns the matched characters and the rest. -/
def extAfterDot : List Char → Option (List Char × List Char)
  | '.' :: u =>
    stackExts.findSome? (fun e =>
      if e.isPrefixOf u then some ('.' :: e, u.drop e.length) else none)
  | _ => none

/-- Greedy `⟨class⟩+\.(ts|js|tsx|jsx)`: `run` is the maximal class run and
`tail` what follows it; repetition lengths are tried longest first.  `pre`
holds the characters already matched before the repetition. -/
def greedyDotExt (pre run tail : List Char) : Nat → Option (String × List Char)
  | 0 => none
  | k + 1 =>
    match extAfterDot (run.drop (k + 1) ++ tail) with
    | some (ec, rest) => some (String.mk (pre ++ run.take (k + 1) ++ ec), rest)
    | none => greedyDotExt pre run tail k

/-- `[\/]⟨class⟩+\.(ts|js|tsx|jsx)` at one position (the whole pattern is
group 1, so the match itself is returned).  `reader.ts` uses the class
`[^:\s]`, `bugAnalyzer.ts` the class `[^:]`. -/
def matchUnixAt (cls : Char → Bool) : List Char → Option (String × List Char)
  | '/' :: rest =>
    let run := rest.takeWhile cls
    greedyDotExt ['/'] run (rest.drop run.length) run.length
  | _ => none

/-- `[a-zA-Z]:\\[^:]+\.(ts|js|tsx|jsx)` at one position (whole pattern is
group 1). -/
def matchWindowsAt : List Char → Option (String × List Char)
  | c :: ':' :: '\\' :: rest =>
    if c.isAlpha then
      let run := rest.takeWhile (fun x => x != ':')
      greedyDotExt [c, ':', '\\'] run (rest.drop run.length) run.length
    else none
  | _ => none

/-- `:\d+:\d+` (and a closing parenthesis when `needParen`); returns the
rest after the match.  `\d+` before `:` or `)` can only match its maximal
run. -/
def colonDigits (needParen : Bool) (cs : List Char) : Option (List Char) :=
  match cs with
  | ':' :: t =>
    let ds := t.takeWhile Char.isDigit
    if ds.isEmpty then none
    else
      match t.drop ds.length with
      | ':' :: u =>
        let ds2 := u.takeWhile Char.isDigit
        if ds2.isEmpty then none
        else
          let v := u.drop ds2.length
          if needParen then
            match v with
            | ')' :: w => some w
            | _ => none
          else some v
      | _ => none
  | _ => none

/-- The capture `(.+?\.(ts|js|tsx|jsx))` followed by `:\d+:\d+` (plus `)`
when `needParen`): lazy body, extension alternation backtracked against the
digit suffix. -/
def capFileColon (needParen : Bool) (cs : List Char) : Option (String × List Char) :=
  (lazyCap (fun w =>
    match w with
    | '.' :: u =>
      stackExts.findSome? (fun e =>
        if e.isPrefixOf u then
          (colonDigits needParen (u.drop e.length)).map (fun rest => ('.' :: e, rest))
        else none)
    | _ => none) cs).map (fun p => (String.mk (p.1 ++ p.2.1), p.2.2))

/-- `at\s+.*?\((.+?\.(ts|js|tsx|jsx)):\d+:\d+\)` at one position; returns
group 1. -/
def matchAtParenAt : List Char → Option (String × List Char)
  | 'a' :: 't' :: r =>
    tryWsPlus r (fun u =>
      lazyScan (fun t =>
        match t with
        | '(' :: v => capFileColon true v
        | _ => none) u)
  | _ => none

/-- `at\s+(.+?\.(ts|js|tsx|jsx)):\d+:\d+` at one position; returns
group 1. -/
def matchAtPlainAt : List Char → Option (String × List Char)
  | 'a' :: 't' :: r => tryWsPlus r (fun u => capFileColon false u)
  | _ => none

/-- The `exec` loop of a global regex: leftmost match, then continue at the
end of the match.  The fuel argument (instantiated with the input length)
only serves termination; every pattern here consumes at least one
character per match. -/
def execGlobal (m : List Char → Option (String × List Char)) : Nat → List Char → List String
  | 0, _ => []
  | _ + 1, [] => []
  | fuel + 1, c :: t =>
    match m (c :: t) with
    | some (cap, rest) => cap :: execGlobal m fuel rest
    | none => execGlobal m fuel t

/-- `[...new Set(xs)]`: first occurrences in order. -/
def dedupFirst (seen : List String) : List String → List String
  | [] => []
  | x :: xs => if seen.contains x then dedupFirst seen xs else x :: dedupFirst (x :: seen) xs

/-- `extractFilesFromError` of `reader.ts`: the four stack-trace patterns
run in order over the log, concatenated, deduplicated keeping first
occurrences. -/
def extractFilesFromError (errorLog : String) : List String :=
  let cs := errorLog.toList
  let m1 := execGlobal matchAtParenAt cs.length cs
  let m2 := execGlobal matchAtPlainAt cs.length cs
  let m3 := execGlobal matchWindowsAt cs.length cs
  let m4 := execGlobal (matchUnixAt (fun c => c != ':' && !c.isWhitespace)) cs.length cs
  dedupFirst [] (m1 ++ m2 ++ m3 ++ m4)

/-! ### `src/agent/reader.ts`: the relevance cascade -/

/-- The shared load step of stages 1 and 2 of `findRelatedFiles`: join with
the base path unless absolute, keep the file only when it exists on disk. -/
def loadPath (basePath : String) (fs : FS) (filePath : String) : Option FileContent :=
  let absolutePath := if isAbsolutePath filePath then filePath else joinPath basePath filePath
  if existsSync fs absolutePath then
    some { path := absolutePath
           content := readFileSync fs absolutePath
           extension := extname absolutePath }
  else none

/-- The `for (const filePath of xs.slice(0, 5))` load loop of stages 1
and 2: the first five supplied paths are attempted and the existing ones
pushed in order. -/
def loadFirstFive (basePath : String) (fs : FS) (paths : List String) : List FileContent :=
  (paths.take 5).foldl (fun files fp =>
    match loadPath basePath fs fp with
    | some f => files ++ [f]
    | none => files) []

/-- Stage 2 of `findRelatedFiles` (option 2 in the source): entered when
`problem.errorLog` is truthy. -/
def stage2Files (problem : ProblemInput) (fs : FS) : List FileContent :=
  match problem.errorLog with
  | some e => if e = "" then [] else loadFirstFive problem.basePath fs (extractFilesFromError e)
  | none => []

/-- Keyword tokenisation of stage 3: lowercase the description, split on
whitespace, keep words longer than 3 characters. -/
def keywordsOf (description : String) : List (List Char) :=
  (splitBy Char.isWhitespace (lowerChars description.toList)).filter (fun w => w.length > 3)

/-- The stage-3 score of one scanned file: +1 per keyword in the lowercased
content, +2 per keyword in the lowercased filename. -/
def fileScore (keywords : List (List Char)) (f : ScannedFile) : Nat :=
  let lowerContent := lowerChars f.content.toList
  let lowerName := lowerChars f.file.toList
  keywords.foldl (fun score kw =>
    let s1 := if containsSub lowerContent kw then score + 1 else score
    if containsSub lowerName kw then s1 + 2 else s1) 0

/-- `allFiles.map(f => ({file: f, score}))` of stage 3, as pairs. -/
def scoredOf (description : String) (allFiles : List ScannedFile) : List (ScannedFile × Nat) :=
  allFiles.map (fun f => (f, fileScore (keywordsOf description) f))

/-- Stable insertion for the descending score order: an element is placed
before the first already-sorted element whose score it reaches, hence after
every earlier element of equal score. -/
def insertByScore (x : ScannedFile × Nat) : List (ScannedFile × Nat) → List (ScannedFile × Nat)
  | [] => [x]
  | y :: t => if x.2 ≥ y.2 then x :: y :: t else y :: insertByScore x t

/-- `Array.prototype.sort` with comparator `(a, b) => b.score - a.score`.
ECMAScript mandates a stable sort, and for a consistent comparator the
stable sorted output is unique, so this insertion sort is extensionally the
same function. -/
def sortByScoreDesc : List (ScannedFile × Nat) → List (ScannedFile × Nat)
  | [] => []
  | x :: t => insertByScore x (sortByScoreDesc t)

/-- The filtered and sorted score list of stage 3 (before `slice(0, 5)`). -/
def sortedRelevant (description : String) (allFiles : List ScannedFile) :
    List (ScannedFile × Nat) :=
  sortByScoreDesc ((scoredOf description allFiles).filter (fun sf => sf.2 > 0))

/-- The projection `{path, content, extension}` applied to stage-3 and
fallback results. -/
def toFileContent (f : ScannedFile) : FileContent :=
  { path := f.path, content := f.content, extension := f.extension }

/-- `relevantFiles` of stage 3: top five of the sorted nonzero scores. -/
def relevantFiles (description : String) (allFiles : List ScannedFile) : List FileContent :=
  ((sortedRelevant description allFiles).take 5).map (fun sf => toFileContent sf.1)

/-- Option 3 and the last-resort fallback of `findRelatedFiles`: keyword
scoring over a full scan, else the first three scanned files. -/
def keywordStage (problem : ProblemInput) (tree : List Entry) : List FileContent :=
  let allFiles := scanRepository problem.basePath tree
  let relevant := relevantFiles problem.description allFiles
  if relevant.length > 0 then relevant
  else (allFiles.take 3).map toFileContent

/-- Options 2–4 of `findRelatedFiles` (reached when no usable explicit
paths were supplied): stage-2 files are returned when nonempty, otherwise
the keyword stage runs. -/
def findFromError (problem : ProblemInput) (fs : FS) (tree : List Entry) : List FileContent :=
  let files := stage2Files problem fs
  if files.length > 0 then files else keywordStage problem tree

/-- `findRelatedFiles` of `reader.ts`.  Option 1 (explicit paths) is taken
when `problem.filePaths` is truthy and nonempty, and returns its loaded
files unconditionally. -/
def findRelatedFiles (problem : ProblemInput) (fs : FS) (tree : List Entry) : List FileContent :=
  match problem.filePaths with
  | some fps =>
    if fps.length > 0 then loadFirstFive problem.basePath fs fps
    else findFromError problem fs tree
  | none => findFromError problem fs tree

/-! ### `src/agent/bugAnalyzer.ts` -/

/-- `BugFile` of `ollama.ts` as used by the bug analyzer. -/
structure BugFile where
  path : String
  content : String
deriving DecidableEq, Repr

/-- The load step shared by `selectRelevantFiles` and `loadFiles`
(`path.resolve` of `loadFiles` against a working directory behaves as the
same join for the POSIX model). -/
def loadBugFile (basePath : String) (fs : FS) (filePath : String) : Option BugFile :=
  let absolutePath := if isAbsolutePath filePath then filePath else joinPath basePath filePath
  if existsSync fs absolutePath then
    some { path := absolutePath, content := readFileSync fs absolutePath }
  else none

/-- The `filePattern` of `bugAnalyzer.ts`:
`([a-zA-Z]:\\[^:]+\.(ts|js|tsx|jsx))|([\/][^:]+\.(ts|js|tsx|jsx))`,
alternatives tried left to right; `match` with the global flag returns the
full match of each occurrence. -/
def bugFileMatcher (cs : List Char) : Option (String × List Char) :=
  match matchWindowsAt cs with
  | some r => some r
  | none => matchUnixAt (fun c => c != ':') cs

/-- `selectRelevantFiles` of `bugAnalyzer.ts`: all pattern matches,
deduplicated, first five, loaded when existing. -/
def selectRelevantFiles (errorLog : String) (basePath : String) (fs : FS) : List BugFile :=
  let cs := errorLog.toList
  let found := execGlobal bugFileMatcher cs.length cs
  let uniquePaths := (dedupFirst [] found).take 5
  uniquePaths.foldl (fun files filePath =>
    match loadBugFile basePath fs filePath with
    | some f => files ++ [f]
    | none => files) []

/-- `loadFiles` of `bugAnalyzer.ts`: the first five supplied paths,
resolved against the working directory, loaded when existing. -/
def loadFiles (cwd : String) (fs : FS) (filePaths : List String) : List BugFile :=
  (filePaths.take 5).foldl (fun files filePath =>
    match loadBugFile cwd fs filePath with
    | some f => files ++ [f]
    | none => files) []

/-! ### Specification-side definitions

These restate clauses of the specification in their own terms, to be
compared with the embedded source functions. -/

/-- The candidate list stated by the spec for import resolution: exact
basename, then basename plus each listed extension, then `index` plus each
listed extension, first hit wins. -/
def importCandidates (modulePath : String) : List String :=
  basenameStr modulePath ::
    (extensions.map (fun ext => basenameStr modulePath ++ ext) ++
     extensions.map (fun ext => "index" ++ ext))

mutual
/-- All files of an entry with their chain of enclosing directory names
(relative to the entry's parent) and content — no filtering. -/
def collectEntry : Entry → List (List String × String × String)
  | .file name content => [([], name, content)]
  | .dir name entries => (collectList entries).map (fun t => (name :: t.1, t.2))

/-- All files of a tree with directory chains, in traversal order. -/
def collectList : List Entry → List (List String × String × String)
  | [] => []
  | e :: es => collectEntry e ++ collectList es
end

/-- The spec's criterion for one file of the tree: kept iff no enclosing
directory name is ignored and the lowercased extension is allow-listed;
the record then carries the lowercased extension and the joined path. -/
def keepScanned (dirPath : String) (t : List String × String × String) : Option ScannedFile :=
  if (t.1.all (fun d => !(IGNORED_DIRS.contains d)))
      && SUPPORTED_EXTENSIONS.contains (toLowerStr (extname t.2.1)) then
    some { file := t.2.1
           path := joinPath (t.1.foldl joinPath dirPath) t.2.1
           content := t.2.2
           extension := toLowerStr (extname t.2.1) }
  else none

/-! ### Infrastructure lemmas -/

theorem foldl_push_filterMap (g : α → Option β) (f : List β → α → List β)
    (hf : ∀ a x, f a x = ((g x).elim a (fun b => a ++ [b])))
    (l : List α) (acc : List β) : l.foldl f acc = acc ++ l.filterMap g := by
  induction l generalizing acc with
  | nil => simp
  | cons x t ih =>
    cases h : g x <;> rw [List.foldl_cons, hf] <;> simp [h, ih]

theorem loadFirstFive_eq (basePath : String) (fs : FS) (paths : List String) :
    loadFirstFive basePath fs paths = (paths.take 5).filterMap (loadPath basePath fs) := by
  unfold loadFirstFive
  rw [foldl_push_filterMap (loadPath basePath fs) _
    (fun a x => by cases loadPath basePath fs x <;> rfl)]
  simp

theorem length_loadFirstFive_le (basePath : String) (fs : FS) (paths : List String) :
    (loadFirstFive basePath fs paths).length ≤ 5 := by
  rw [loadFirstFive_eq]
  exact le_trans (List.length_filterMap_le _ _) (List.length_take_le _ _)

theorem length_stage2Files_le (problem : ProblemInput) (fs : FS) :
    (stage2Files problem fs).length ≤ 5 := by
  unfold stage2Files
  match problem.errorLog with
  | none => simp
  | some e =>
    by_cases h : e = "" <;> simp [h, length_loadFirstFive_le]

theorem fold_score_acc (A B : List Char → Bool) (kws : List (List Char)) (acc : Nat) :
    kws.foldl (fun score kw =>
        let s1 := if A kw then score + 1 else score
        if B kw then s1 + 2 else s1) acc
      = acc + (kws.filter A).length + 2 * (kws.filter B).length := by
  induction kws generalizing acc with
  | nil => simp
  | cons kw t ih =>
    cases hA : A kw <;> cases hB : B kw <;>
      simp only [List.foldl_cons, List.filter_cons, hA, hB, if_true, if_false, ih] <;>
      simp <;> omega

theorem fileScore_formula (kws : List (List Char)) (f : ScannedFile) :
    fileScore kws f
      = (kws.filter (fun kw => containsSub (lowerChars f.content.toList) kw)).length
        + 2 * (kws.filter (fun kw => containsSub (lowerChars f.file.toList) kw)).length := by
  simpa using fold_score_acc (fun kw => containsSub (lowerChars f.content.toList) kw)
    (fun kw => containsSub (lowerChars f.file.toList) kw) kws 0

theorem mem_insertByScore {x y : ScannedFile × Nat} {l : List (ScannedFile × Nat)} :
    y ∈ insertByScore x l ↔ y = x ∨ y ∈ l := by
  induction l with
  | nil => simp [insertByScore]
  | cons z t ih =>
    by_cases h : x.2 ≥ z.2 <;> simp [insertByScore, h, ih] <;> tauto

theorem mem_sortByScoreDesc {y : ScannedFile × Nat} {l : List (ScannedFile × Nat)} :
    y ∈ sortByScoreDesc l ↔ y ∈ l := by
  induction l with
  | nil => simp [sortByScoreDesc]
  | cons z t ih => simp [sortByScoreDesc, mem_insertByScore, ih]

theorem pairwise_insertByScore {x : ScannedFile × Nat} {l : List (ScannedFile × Nat)}
    (hl : l.Pairwise (fun a b => a.2 ≥ b.2)) :
    (insertByScore x l).Pairwise (fun a b => a.2 ≥ b.2) := by
  induction l with
  | nil => simp [insertByScore]
  | cons z t ih =>
    rcases List.pairwise_cons.mp hl with ⟨hz, ht⟩
    by_cases h : x.2 ≥ z.2
    · simp only [insertByScore, if_pos h]
      refine List.pairwise_cons.mpr ⟨?_, hl⟩
      intro w hw
      rcases List.mem_cons.mp hw with rfl | hw
      · exact h
      · exact le_trans (hz w hw) h
    · simp only [insertByScore, if_neg h]
      refine List.pairwise_cons.mpr ⟨?_, ih ht⟩
      intro w hw
      rcases mem_insertByScore.mp hw with rfl | hw
      · omega
      · exact hz w hw

theorem pairwise_sortByScoreDesc (l : List (ScannedFile × Nat)) :
    (sortByScoreDesc l).Pairwise (fun a b => a.2 ≥ b.2) := by
  induction l with
  | nil => simp [sortByScoreDesc]
  | cons z t ih => exact pairwise_insertByScore ih

theorem filter_insertByScore (x : ScannedFile × Nat) (l : List (ScannedFile × Nat)) (s : Nat) :
    (insertByScore x l).filter (fun sf => sf.2 = s)
      = if x.2 = s then x :: l.filter (fun sf => sf.2 = s)
        else l.filter (fun sf => sf.2 = s) := by
  induction l with
  | nil => by_cases h : x.2 = s <;> simp [insertByScore, h]
  | cons z t ih =>
    simp only [insertByScore]
    by_cases h : x.2 ≥ z.2
    · rw [if_pos h]
      by_cases hx : x.2 = s <;> simp [List.filter_cons, hx]
    · rw [if_neg h]
      by_cases hx : x.2 = s
      · have hzs : ¬ z.2 = s := by omega
        simp [List.filter_cons, ih, hx, hzs]
      · by_cases hzs : z.2 = s <;> simp [List.filter_cons, ih, hx, hzs]

theorem filter_sortByScoreDesc (l : List (ScannedFile × Nat)) (s : Nat) :
    (sortByScoreDesc l).filter (fun sf => sf.2 = s) = l.filter (fun sf => sf.2 = s) := by
  induction l with
  | nil => rfl
  | cons z t ih =>
    by_cases h : z.2 = s <;>
      simp [sortByScoreDesc, filter_insertByScore, List.filter_cons, h, ih]

theorem findSome?_map_find? (g : α → β) (P : β → Bool) (l : List α) :
    (l.findSome? (fun e => if P (g e) then some (g e) else none)) = (l.map g).find? P := by
  induction l with
  | nil => rfl
  | cons a t ih =>
    by_cases h : P (g a) <;>
      simp [List.findSome?_cons, List.find?_cons, h, ih]

theorem resolveImport_eq_find? (modulePath : String) (existingFiles : List String) :
    resolveImport modulePath existingFiles
      = (importCandidates modulePath).find? (fun c => existingFiles.contains c) := by
  unfold resolveImport importCandidates
  rw [List.find?_cons, List.find?_append,
    ← findSome?_map_find? (fun ext => basenameStr modulePath ++ ext)
      (fun c => existingFiles.contains c) extensions,
    ← findSome?_map_find? (fun ext => "index" ++ ext)
      (fun c => existingFiles.contains c) extensions]
  simp only []
  cases hc : existingFiles.contains (basenameStr modulePath)
  · cases hf : extensions.findSome? (fun ext =>
        if existingFiles.contains (basenameStr modulePath ++ ext) then
          some (basenameStr modulePath ++ ext)
        else none) <;>
      simp [hf, Option.or]
  · simp

theorem resolveImport_mem {modulePath : String} {existingFiles : List String} {r : String}
    (h : resolveImport modulePath existingFiles = some r) : r ∈ existingFiles := by
  rw [resolveImport_eq_find?] at h
  have := List.find?_some h
  simpa using this

theorem dependenciesOf_eq_filterMap (content : String) (fileNames : List String) :
    dependenciesOf content fileNames
      = (parseImports content).filterMap
          (fun imp => if imp.isRelative then resolveImport imp.module fileNames else none) := by
  unfold dependenciesOf
  rw [foldl_push_filterMap
    (fun imp => if imp.isRelative then resolveImport imp.module fileNames else none) _
    (fun a imp => by
      cases hr : imp.isRelative <;> simp only [hr, if_true, if_false, Bool.false_eq_true]
      · rfl
      · cases resolveImport imp.module fileNames <;> rfl)]
  simp

theorem mem_objAssign {m : DependencyMap} {k : String} {v : List String}
    {e : String × List String} (h : e ∈ objAssign m k v) : e ∈ m ∨ e = (k, v) := by
  unfold objAssign at h
  by_cases hk : m.any (fun e => e.1 = k)
  · rw [if_pos hk] at h
    rcases List.mem_map.mp h with ⟨a, ha, rfl⟩
    by_cases hak : a.1 = k <;> simp [hak, ha]
  · rw [if_neg hk] at h
    rcases List.mem_append.mp h with ha | ha
    · exact Or.inl ha
    · simp at ha
      exact Or.inr ha

theorem buildDependencyMap_entries (files : List ScannedFile) :
    ∀ e ∈ buildDependencyMap files, ∀ d ∈ e.2, d ∈ files.map (fun f => f.file) := by
  unfold buildDependencyMap
  have step : ∀ (fl : List ScannedFile) (m : DependencyMap),
      (∀ e ∈ m, ∀ d ∈ e.2, d ∈ files.map (fun f => f.file)) →
      ∀ e ∈ fl.foldl (fun m f =>
          objAssign m f.file (dependenciesOf f.content (files.map (fun f => f.file)))) m,
        ∀ d ∈ e.2, d ∈ files.map (fun f => f.file) := by
    intro fl
    induction fl with
    | nil => intro m hm; exact hm
    | cons f t ih =>
      intro m hm
      rw [List.foldl_cons]
      refine ih _ ?_
      intro e he d hd
      rcases mem_objAssign he with he2 | rfl
      · exact hm e he2 d hd
      · simp only at hd
        rw [dependenciesOf_eq_filterMap] at hd
        rcases List.mem_filterMap.mp hd with ⟨imp, _, himp⟩
        by_cases hr : imp.isRelative
        · rw [if_pos hr] at himp
          exact resolveImport_mem himp
        · rw [if_neg hr] at himp
          exact absurd himp (by simp)
  exact step files [] (by simp)

theorem findDependents_eq (targetFile : String) (map : DependencyMap) :
    findDependents targetFile map
      = map.filterMap (fun e => if e.2.contains targetFile then some e.1 else none) := by
  unfold findDependents
  rw [foldl_push_filterMap
    (fun e => if e.2.contains targetFile then some e.1 else none) _
    (fun a e => by by_cases h : targetFile ∈ e.2 <;> simp [h])]
  simp

theorem lookup_eq_some_iff_nodup {m : DependencyMap} (h : (m.map (fun e => e.1)).Nodup)
    (A : String) (deps : List String) :
    m.lookup A = some deps ↔ (A, deps) ∈ m := by
  induction m with
  | nil => simp
  | cons e t ih =>
    obtain ⟨k, v⟩ := e
    rw [List.map_cons, List.nodup_cons] at h
    obtain ⟨hk, ht⟩ := h
    by_cases hA : A = k
    · subst hA
      simp only [List.lookup, beq_self_eq_true]
      constructor
      · intro hl
        have hv : v = deps := by simpa using hl
        subst hv
        exact List.mem_cons_self _ _
      · intro hm
        rcases List.mem_cons.mp hm with heq | hm
        · injection heq with h1 h2
          subst h2
          rfl
        · exact absurd (List.mem_map.mpr ⟨(A, deps), hm, rfl⟩) hk
    · have hbeq : (A == k) = false := by simpa using hA
      simp only [List.lookup, hbeq]
      rw [ih ht]
      constructor
      · intro hm; exact List.mem_cons_of_mem _ hm
      · intro hm
        rcases List.mem_cons.mp hm with heq | hm
        · exact absurd (congrArg Prod.fst heq) hA
        · exact hm

mutual
theorem walkEntry_eq_collect (dirPath : String) : (e : Entry) →
    walkEntry dirPath e = (collectEntry e).filterMap (keepScanned dirPath)
  | .file name content => by
    by_cases h : toLowerStr (extname name) ∈ SUPPORTED_EXTENSIONS <;>
      simp [walkEntry, collectEntry, keepScanned, h]
  | .dir name entries => by
    simp only [walkEntry, collectEntry]
    by_cases h : name ∈ IGNORED_DIRS
    · rw [if_pos (by simpa using h), List.filterMap_map]
      symm
      rw [List.filterMap_eq_nil_iff]
      intro t _
      simp [keepScanned, Function.comp, h]
    · rw [if_neg (by simpa using h), List.filterMap_map,
        walkDirectory_eq_collect (joinPath dirPath name) entries]
      have hfun : (keepScanned dirPath ∘ fun t => (name :: t.1, t.2))
          = keepScanned (joinPath dirPath name) := by
        funext t
        obtain ⟨c, fn, ct⟩ := t
        simp [keepScanned, Function.comp, List.all_cons, h]
      rw [hfun]

theorem walkDirectory_eq_collect (dirPath : String) : (es : List Entry) →
    walkDirectory dirPath es = (collectList es).filterMap (keepScanned dirPath)
  | [] => rfl
  | e :: es => by
    simp only [walkDirectory, collectList, List.filterMap_append]
    rw [walkEntry_eq_collect dirPath e, walkDirectory_eq_collect dirPath es]
end

theorem length_relevantFiles_le (description : String) (allFiles : List ScannedFile) :
    (relevantFiles description allFiles).length ≤ 5 := by
  unfold relevantFiles
  simpa using List.length_take_le 5 (sortedRelevant description allFiles)

theorem length_keywordStage_le (problem : ProblemInput) (tree : List Entry) :
    (keywordStage problem tree).length ≤ 5 := by
  unfold keywordStage
  by_cases h : (relevantFiles problem.description (scanRepository problem.basePath tree)).length > 0
  · simpa [h] using length_relevantFiles_le problem.description
      (scanRepository problem.basePath tree)
  · simp only [h, if_false, List.length_map]
    have h3 : ((scanRepository problem.basePath tree).take 3).length ≤ 3 :=
      List.length_take_le _ _
    omega

theorem length_findFromError_le (problem : ProblemInput) (fs : FS) (tree : List Entry) :
    (findFromError problem fs tree).length ≤ 5 := by
  unfold findFromError
  by_cases h : (stage2Files problem fs).length > 0
  · simpa [h] using length_stage2Files_le problem fs
  · simpa [h] using length_keywordStage_le problem tree

theorem length_findRelatedFiles_le (problem : ProblemInput) (fs : FS) (tree : List Entry) :
    (findRelatedFiles problem fs tree).length ≤ 5 := by
  unfold findRelatedFiles
  match problem.filePaths with
  | none => exact length_findFromError_le problem fs tree
  | some fps =>
    by_cases h : fps.length > 0
    · simpa [h] using length_loadFirstFive_le problem.basePath fs fps
    · simpa [h] using length_findFromError_le problem fs tree

theorem length_selectRelevantFiles_le (errorLog basePath : String) (fs : FS) :
    (selectRelevantFiles errorLog basePath fs).length ≤ 5 := by
  unfold selectRelevantFiles
  rw [foldl_push_filterMap (loadBugFile basePath fs) _
    (fun a x => by cases loadBugFile basePath fs x <;> rfl)]
  simp only [List.nil_append]
  exact le_trans (List.length_filterMap_le _ _) (List.length_take_le _ _)

theorem length_loadFiles_le (cwd : String) (fs : FS) (filePaths : List String) :
    (loadFiles cwd fs filePaths).length ≤ 5 := by
  unfold loadFiles
  rw [foldl_push_filterMap (loadBugFile cwd fs) _
    (fun a x => by cases loadBugFile cwd fs x <;> rfl)]
  simp only [List.nil_append]
  exact le_trans (List.length_filterMap_le _ _) (List.length_take_le _ _)

/-! ### Claim theorems -/

/-- C2: for every problem input and filesystem state the selector output is
bounded: `findRelatedFiles` returns at most 5 files (in every stage), and
so do `selectRelevantFiles` and `loadFiles` of the bug analyzer; the
last-resort fallback returns at most 3 files. -/
theorem selector_cap_five (problem : ProblemInput) (fs : FS) (tree : List Entry)
    (errorLog basePath cwd : String) (filePaths : List String) :
    (findRelatedFiles problem fs tree).length ≤ 5
    ∧ (selectRelevantFiles errorLog basePath fs).length ≤ 5
    ∧ (loadFiles cwd fs filePaths).length ≤ 5
    ∧ (((scanRepository problem.basePath tree).take 3).map toFileContent).length ≤ 3 :=
  ⟨length_findRelatedFiles_le problem fs tree,
   length_selectRelevantFiles_le errorLog basePath fs,
   length_loadFiles_le cwd fs filePaths,
   by simpa using List.length_take_le 3 (scanRepository problem.basePath tree)⟩

/-- C5: stage-3 keyword scoring computes score = (keywords in content) +
2 × (keywords in filename), keeps only scores > 0, sorts descending with
the original scan order preserved among equal scores, and returns the
first 5 of that ordering. -/
theorem keyword_scoring_spec (description : String) (allFiles : List ScannedFile) :
    (∀ f : ScannedFile,
      fileScore (keywordsOf description) f
        = ((keywordsOf description).filter
            (fun kw => containsSub (lowerChars f.content.toList) kw)).length
          + 2 * ((keywordsOf description).filter
            (fun kw => containsSub (lowerChars f.file.toList) kw)).length)
    ∧ (∀ sf : ScannedFile × Nat, sf ∈ sortedRelevant description allFiles
        ↔ sf ∈ scoredOf description allFiles ∧ sf.2 > 0)
    ∧ (sortedRelevant description allFiles).Pairwise (fun a b => a.2 ≥ b.2)
    ∧ (∀ s : Nat, (sortedRelevant description allFiles).filter (fun sf => sf.2 = s)
        = ((scoredOf description allFiles).filter (fun sf => sf.2 > 0)).filter
            (fun sf => sf.2 = s))
    ∧ relevantFiles description allFiles
        = ((sortedRelevant description allFiles).take 5).map (fun sf => toFileContent sf.1) := by
  refine ⟨fileScore_formula (keywordsOf description), ?_, pairwise_sortByScoreDesc _, ?_, rfl⟩
  · intro sf
    rw [sortedRelevant, mem_sortByScoreDesc, List.mem_filter]
    simp
  · intro s
    simp only [sortedRelevant]
    exact filter_sortByScoreDesc _ s

/-- C6: `buildDependencyMap` resolves each relative import by trying, in
order, the exact basename, the basename plus each of
`['.ts','.js','.tsx','.jsx','.wgsl']`, then `index` plus each of those;
the first match wins, unresolved imports contribute nothing, package
imports are never recorded, and every recorded edge target is a filename
of the same scan batch. -/
theorem dependency_resolution_spec :
    (∀ modulePath existingFiles,
      resolveImport modulePath existingFiles
        = (importCandidates modulePath).find? (fun c => existingFiles.contains c))
    ∧ (∀ modulePath existingFiles r,
        resolveImport modulePath existingFiles = some r → r ∈ existingFiles)
    ∧ (∀ content fileNames,
        dependenciesOf content fileNames
          = (parseImports content).filterMap
              (fun imp => if imp.isRelative then resolveImport imp.module fileNames else none))
    ∧ (∀ files : List ScannedFile, ∀ e ∈ buildDependencyMap files, ∀ d ∈ e.2,
        d ∈ files.map (fun f => f.file)) :=
  ⟨resolveImport_eq_find?, fun _ _ _ h => resolveImport_mem h,
   dependenciesOf_eq_filterMap, buildDependencyMap_entries⟩

/-- Witness for C6 at a concrete batch: `./shared` resolves into the batch
and the recorded edge targets of `helper.ts` are batch members. -/
theorem dependency_resolution_spec_witness :
    "shared.ts" ∈ ["helper.ts", "shared.ts"]
    ∧ ∀ d ∈ (("helper.ts", ["shared.ts"]) : String × List String).2,
        d ∈ List.map (fun f => f.file)
          [ScannedFile.mk "helper.ts" "/p/helper.ts" "import s from './shared'" ".ts",
           ScannedFile.mk "shared.ts" "/p/shared.ts" "" ".ts"] :=
  ⟨dependency_resolution_spec.2.1 "./shared" ["helper.ts", "shared.ts"] "shared.ts" (by decide),
   dependency_resolution_spec.2.2.2
     [ScannedFile.mk "helper.ts" "/p/helper.ts" "import s from './shared'" ".ts",
      ScannedFile.mk "shared.ts" "/p/shared.ts" "" ".ts"]
     ("helper.ts", ["shared.ts"]) (by decide)⟩

/-- C7: `findDependents` is the exact inverse of the dependency map: `A`
is listed among the dependents of `B` iff the map's entry for `A` contains
`B` (keys are unique in a JavaScript object, hence the `Nodup`
hypothesis). -/
theorem findDependents_inverse (map : DependencyMap) (A B : String)
    (hnodup : (map.map (fun e => e.1)).Nodup) :
    A ∈ findDependents B map ↔ ∃ deps, map.lookup A = some deps ∧ B ∈ deps := by
  rw [findDependents_eq]
  constructor
  · intro hmem
    rcases List.mem_filterMap.mp hmem with ⟨e, he, hsome⟩
    obtain ⟨k, v⟩ := e
    by_cases hc : B ∈ v
    · have hA : k = A := by simpa [hc] using hsome
      subst hA
      exact ⟨v, (lookup_eq_some_iff_nodup hnodup _ _).mpr he, hc⟩
    · simp [hc] at hsome
  · rintro ⟨deps, hl, hB⟩
    rw [lookup_eq_some_iff_nodup hnodup] at hl
    exact List.mem_filterMap.mpr ⟨(A, deps), hl, by simp [hB]⟩

/-- Witness for C7: in a concrete map where `helper.ts` depends on
`shared.ts`, the dependents of `shared.ts` include `helper.ts`. -/
theorem findDependents_inverse_witness :
    (([("helper.ts", ["shared.ts"]), ("main.ts", ["helper.ts"])] : DependencyMap).map
        (fun e => e.1)).Nodup
    ∧ "helper.ts" ∈ findDependents "shared.ts"
        [("helper.ts", ["shared.ts"]), ("main.ts", ["helper.ts"])] :=
  ⟨by decide,
   (findDependents_inverse [("helper.ts", ["shared.ts"]), ("main.ts", ["helper.ts"])]
     "helper.ts" "shared.ts" (by decide)).mpr ⟨["shared.ts"], by decide, by decide⟩⟩

/-- C8: for every directory tree (all files readable in the model),
`scanRepository` returns exactly one record per file whose lowercased
extension is allow-listed and that lies beneath no ignored directory at
any depth, and no record for any other file — stated as equality with the
filtered collection of all files of the tree. -/
theorem scanRepository_exact (root : String) (tree : List Entry) :
    scanRepository root tree = (collectList tree).filterMap (keepScanned root) :=
  walkDirectory_eq_collect root tree

/-- C9: `parseImports` skips every line whose trimmed text begins with `*`
(and with `//`); a JSDoc continuation line never produces a record, while
an import on a block-comment line not starting with `*` or `//` is still
extracted. -/
theorem parseImports_comment_skip :
    (∀ line : List Char, ['*'].isPrefixOf (trimChars line) = true → parseLine line = none)
    ∧ (∀ line : List Char,
        ("//".toList).isPrefixOf (trimChars line) = true → parseLine line = none)
    ∧ parseImports " * import { x } from './shared'" = []
    ∧ parseImports "/*\nimport { x } from './shared'\n*/"
        = [{ raw := "import { x } from './shared'", module := "./shared",
             isRelative := true, isPackage := false }] := by
  refine ⟨?_, ?_, by decide, by decide⟩
  · intro line h
    simp [parseLine, h]
  · intro line h
    have h2 : ['/', '/'] <+: trimChars line := by simpa using h
    simp [parseLine, h2]

/-- Witness for C9 at a concrete JSDoc body line. -/
theorem parseImports_comment_skip_witness :
    ['*'].isPrefixOf (trimChars (" * import x from './y'".toList)) = true
    ∧ parseLine (" * import x from './y'".toList) = none :=
  ⟨by decide, parseImports_comment_skip.1 (" * import x from './y'".toList) (by decide)⟩

/-- C10: the scanner matches extensions case-insensitively — a file whose
extension is allow-listed up to letter case is included, and the record's
extension field holds the lowercased extension. -/
theorem scan_extension_case_insensitive (dirPath name content : String)
    (h : SUPPORTED_EXTENSIONS.contains (toLowerStr (extname name)) = true) :
    scanRepository dirPath [Entry.file name content]
      = [{ file := name, path := joinPath dirPath name, content := content,
           extension := toLowerStr (extname name) }] := by
  have hm : toLowerStr (extname name) ∈ SUPPORTED_EXTENSIONS := by simpa using h
  simp [scanRepository, walkDirectory, walkEntry, hm]

/-- Witness for C10 at the mixed-case name `App.TS`. -/
theorem scan_extension_case_insensitive_witness :
    SUPPORTED_EXTENSIONS.contains (toLowerStr (extname "App.TS")) = true
    ∧ scanRepository "/proj" [Entry.file "App.TS" "let x = 1"]
        = [{ file := "App.TS", path := "/proj/App.TS", content := "let x = 1",
             extension := ".ts" }] := by
  refine ⟨by decide, ?_⟩
  rw [scan_extension_case_insensitive "/proj" "App.TS" "let x = 1" (by decide)]
  decide

theorem length_filterMap_all_some (g : α → Option β) (l : List α)
    (h : ∀ a ∈ l, (g a).isSome) : (l.filterMap g).length = l.length := by
  induction l with
  | nil => rfl
  | cons a t ih =>
    have ha := h a (List.mem_cons_self a t)
    rcases Option.isSome_iff_exists.mp ha with ⟨b, hb⟩
    rw [List.filterMap_cons, hb]
    simp only [List.length_cons]
    rw [ih (fun x hx => h x (List.mem_cons_of_mem a hx))]

/-- Counterexample to C3 as stated: six supplied paths of which only the
sixth exists; the existing path has zero existing predecessors yet is
dropped, because the code caps the list at 5 before the existence
filter. -/
theorem explicit_paths_counterexample :
    existsSync [("/r/f.ts", "F")] (joinPath "/r" "f.ts") = true
    ∧ (["a.ts", "b.ts", "c.ts", "d.ts", "e.ts"].all
        (fun q => !(existsSync [("/r/f.ts", "F")] (joinPath "/r" q)))) = true
    ∧ findRelatedFiles ⟨"bug", none, some ["a.ts", "b.ts", "c.ts", "d.ts", "e.ts", "f.ts"], "/r"⟩
        [("/r/f.ts", "F")] [] = [] := by decide

/-- C3 (amended): in stage 1 (and stage 2, via the same loader) the
selector first caps the supplied list at 5 and then keeps the existing
ones in input order; an existing path is included only when it is among
the first 5 of the list, and when the first 5 all exist (and at least 5
were supplied) exactly 5 files are returned. -/
theorem explicit_paths_cap_then_filter (problem : ProblemInput) (fs : FS) (tree : List Entry)
    (fps : List String) (h1 : problem.filePaths = some fps) (h2 : fps ≠ []) :
    findRelatedFiles problem fs tree = (fps.take 5).filterMap (loadPath problem.basePath fs)
    ∧ (∀ paths, loadFirstFive problem.basePath fs paths
        = (paths.take 5).filterMap (loadPath problem.basePath fs))
    ∧ ((∀ q ∈ fps.take 5, (loadPath problem.basePath fs q).isSome) → 5 ≤ fps.length →
        (findRelatedFiles problem fs tree).length = 5) := by
  have hmain : findRelatedFiles problem fs tree
      = (fps.take 5).filterMap (loadPath problem.basePath fs) := by
    unfold findRelatedFiles
    rw [h1]
    have hlen : fps.length > 0 := List.length_pos.mpr h2
    simp [hlen, loadFirstFive_eq]
  refine ⟨hmain, fun paths => loadFirstFive_eq problem.basePath fs paths, ?_⟩
  intro hall h5
  rw [hmain, length_filterMap_all_some _ _ hall, List.length_take]
  omega

/-- Witness for the amended C3: five supplied existing paths (a sixth
beyond the cap) produce exactly the five loaded records. -/
theorem explicit_paths_cap_then_filter_witness :
    findRelatedFiles
        ⟨"bug", none, some ["a.ts", "b.ts", "c.ts", "d.ts", "e.ts", "x.ts"], "/r"⟩
        [("/r/a.ts", "A"), ("/r/b.ts", "B"), ("/r/c.ts", "C"), ("/r/d.ts", "D"), ("/r/e.ts", "E")]
        []
      = (["a.ts", "b.ts", "c.ts", "d.ts", "e.ts", "x.ts"].take 5).filterMap
          (loadPath "/r"
            [("/r/a.ts", "A"), ("/r/b.ts", "B"), ("/r/c.ts", "C"), ("/r/d.ts", "D"),
             ("/r/e.ts", "E")])
    ∧ (findRelatedFiles
        ⟨"bug", none, some ["a.ts", "b.ts", "c.ts", "d.ts", "e.ts", "x.ts"], "/r"⟩
        [("/r/a.ts", "A"), ("/r/b.ts", "B"), ("/r/c.ts", "C"), ("/r/d.ts", "D"), ("/r/e.ts", "E")]
        []).length = 5 :=
  ⟨(explicit_paths_cap_then_filter _ _ [] _ rfl (by decide)).1,
   (explicit_paths_cap_then_filter _ _ [] _ rfl (by decide)).2.2 (by decide) (by decide)⟩

/-- Counterexample to C4 as stated: a nonexistent explicit path makes
stage 1 return the empty list; on the same filesystem and tree the
cascade without explicit paths would have found a file by keyword
scoring, so stage 1 did not fall through. -/
theorem explicit_paths_no_fallthrough_counterexample :
    findRelatedFiles ⟨"crash", none, some ["missing.ts"], "/base"⟩ []
        [Entry.file "g.ts" "crash here"] = []
    ∧ findRelatedFiles ⟨"crash", none, none, "/base"⟩ []
        [Entry.file "g.ts" "crash here"]
      = [{ path := "/base/g.ts", content := "crash here", extension := ".ts" }] := by decide

/-- C4 (amended): when the explicit file paths resolve to zero existing
files, the selector returns the empty list from the explicit-path stage;
it does not fall through to stack-trace extraction or keyword scoring. -/
theorem explicit_paths_empty_stage (problem : ProblemInput) (fs : FS) (tree : List Entry)
    (fps : List String) (h1 : problem.filePaths = some fps) (h2 : fps ≠ [])
    (h3 : ∀ q ∈ fps, loadPath problem.basePath fs q = none) :
    findRelatedFiles problem fs tree = [] := by
  unfold findRelatedFiles
  rw [h1]
  have hlen : fps.length > 0 := List.length_pos.mpr h2
  simp only [hlen, if_true, gt_iff_lt]
  rw [loadFirstFive_eq, List.filterMap_eq_nil_iff]
  intro q hq
  exact h3 q (List.mem_of_mem_take hq)

/-- Witness for the amended C4: one nonexistent explicit path on a tree
that keyword scoring would match. -/
theorem explicit_paths_empty_stage_witness :
    (∀ q ∈ ["missing.ts"], loadPath "/base" ([] : FS) q = none)
    ∧ findRelatedFiles ⟨"crash", none, some ["missing.ts"], "/base"⟩ []
        [Entry.file "g.ts" "crash here"] = [] :=
  ⟨by decide,
   explicit_paths_empty_stage _ [] [Entry.file "g.ts" "crash here"] ["missing.ts"]
     rfl (by decide) (by decide)⟩

/-- Counterexample to C1 as stated: the error log yields six extracted
paths of which exactly one — the sixth — exists on disk, yet the selector
consults keyword scoring and returns a scan-derived file rather than the
extracted one, because the extracted list is capped at 5 before the
existence check. -/
theorem cascade_counterexample :
    (extractFilesFromError "/a.ts /b.ts /c.ts /d.ts /e.ts /f.ts").filter
        (fun q => existsSync [("/f.ts", "F")] q) = ["/f.ts"]
    ∧ findRelatedFiles ⟨"crash", some "/a.ts /b.ts /c.ts /d.ts /e.ts /f.ts", none, "/base"⟩
        [("/f.ts", "F")] [Entry.file "g.ts" "crash here"]
      = [{ path := "/base/g.ts", content := "crash here", extension := ".ts" }]
    ∧ ({ path := "/f.ts", content := "F", extension := ".ts" } : FileContent)
        ∉ findRelatedFiles ⟨"crash", some "/a.ts /b.ts /c.ts /d.ts /e.ts /f.ts", none, "/base"⟩
          [("/f.ts", "F")] [Entry.file "g.ts" "crash here"] := by decide

/-- C1 (amended): with no explicit paths the cascade is evaluated in
strict order on the capped stage-2 result — when loading the first five
extracted paths yields at least one existing file those files are
returned and keyword scoring is never consulted; when it yields none (or
no error log is present) every scanned file is scored, and when scoring
keeps no file the first 3 files of the full scan are returned. -/
theorem cascade_order (problem : ProblemInput) (fs : FS) (tree : List Entry)
    (h : problem.filePaths = none ∨ problem.filePaths = some []) :
    findRelatedFiles problem fs tree =
      (let extractedLoaded :=
        match problem.errorLog with
        | some e =>
          if e = "" then []
          else ((extractFilesFromError e).take 5).filterMap (loadPath problem.basePath fs)
        | none => []
      let allFiles := scanRepository problem.basePath tree
      if extractedLoaded ≠ [] then extractedLoaded
      else if sortedRelevant problem.description allFiles ≠ [] then
        ((sortedRelevant problem.description allFiles).take 5).map (fun sf => toFileContent sf.1)
      else (allFiles.take 3).map toFileContent) := by
  have hff : findRelatedFiles problem fs tree = findFromError problem fs tree := by
    unfold findRelatedFiles
    rcases h with h | h <;> rw [h] <;> simp
  have hs2 : stage2Files problem fs
      = (match problem.errorLog with
        | some e =>
          if e = "" then []
          else ((extractFilesFromError e).take 5).filterMap (loadPath problem.basePath fs)
        | none => []) := by
    unfold stage2Files
    cases problem.errorLog with
    | none => rfl
    | some e => by_cases he : e = "" <;> simp [he, loadFirstFive_eq]
  rw [hff]
  unfold findFromError
  simp only [← hs2]
  by_cases h2 : stage2Files problem fs = []
  · rw [h2]
    simp only [List.length_nil, gt_iff_lt, lt_irrefl, if_false, ne_eq, not_true_eq_false]
    unfold keywordStage
    by_cases h3 : sortedRelevant problem.description (scanRepository problem.basePath tree) = []
    · simp [relevantFiles, h3]
    · have hne : relevantFiles problem.description (scanRepository problem.basePath tree)
          ≠ [] := by
        simp [relevantFiles, List.take_eq_nil_iff, h3]
      simp [relevantFiles, h3, List.length_pos.mpr hne]
  · have hpos : (stage2Files problem fs).length > 0 := List.length_pos.mpr h2
    simp [hpos, h2]

/-- Witness for the amended C1: a stack trace whose extracted path exists
within the first five; the selector returns it (and not a scan result). -/
theorem cascade_order_witness :
    ((⟨"crash", some "at run (/w/app.ts:3:7)", none, "/w"⟩ : ProblemInput).filePaths = none
      ∨ (⟨"crash", some "at run (/w/app.ts:3:7)", none, "/w"⟩ : ProblemInput).filePaths
          = some [])
    ∧ findRelatedFiles ⟨"crash", some "at run (/w/app.ts:3:7)", none, "/w"⟩
        [("/w/app.ts", "boom")] []
      = [{ path := "/w/app.ts", content := "boom", extension := ".ts" }] := by
  refine ⟨Or.inl rfl, ?_⟩
  rw [cascade_order _ _ _ (Or.inl rfl)]
  decide
